import Mathlib

/-!
Verification of the visit-cache core (searchlib docstore) and the dense
tensor builder's cell addressing, as a shallow embedding of the C++
sources into Lean.

Sources embedded:
- `searchlib/src/vespa/searchlib/docstore/visitcache.cpp`
- `vespalib/src/vespa/vespalib/tensor/dense/direct_dense_tensor_builder.cpp`

Machine integers are modelled as `Nat`; where 64-bit wrap-around matters
(the tensor builder's `size_t` arithmetic) reductions modulo `2 ^ 64` are
made explicit.  Parts of the repository that the sources call but that are
not part of the two files (the generic bounded cache of vespalib and the
compression codec of the document module) are modelled from the
specification and are marked as such in their doc comments.
-/

namespace VespaVisit

/-! ### KeySet (visitcache.cpp lines 15-30) -/

/-- `KeySet`: the cache key, a vector of lids.  The list constructor sorts
ascending (`std::sort`), the single-id constructor pushes one key. -/
structure KeySet where
  keys : List Nat
deriving DecidableEq, Repr

/-- `KeySet::KeySet(uint32_t key)`: singleton key set. -/
def KeySet.single (key : Nat) : KeySet := ⟨[key]⟩

/-- `KeySet::KeySet(const LidVector &keys)`: copy the vector and
`std::sort` it ascending.  A sorted permutation of a `List Nat` is unique,
so insertion sort gives exactly the `std::sort` result. -/
def KeySet.ofList (keys : List Nat) : KeySet := ⟨keys.insertionSort (· ≤ ·)⟩

/-- `KeySet::empty` (header accessor): true iff no keys. -/
def KeySet.isEmptyK (s : KeySet) : Bool := s.keys.isEmpty

/-- `std::includes(first1, last1, first2, last2)` on sorted ranges, the
exact loop of the libstdc++ specification: advance through the first
range, failing when an element of the second range is passed over. -/
def includes : List Nat → List Nat → Bool
  | _, [] => true
  | [], _ :: _ => false
  | x :: xs, y :: ys =>
    if y < x then false
    else if x < y then includes xs (y :: ys)
    else includes xs ys

/-- `KeySet::contains(rhs)`: `std::includes` over the two sorted key
vectors. -/
def KeySet.contains (s rhs : KeySet) : Bool := includes s.keys rhs.keys

/-! #### Lemmas about `includes` and sortedness -/

theorem count_eq_zero_of_lt_head {y : Nat} {l : List Nat}
    (hs : List.Sorted (· ≤ ·) (y :: l)) {z : Nat} (hz : z < y) :
    (y :: l).count z = 0 := by
  rw [List.count_eq_zero]
  intro hmem
  rcases List.mem_cons.mp hmem with h | h
  · omega
  · have := (List.sorted_cons.mp hs).1 z h
    omega

theorem count_cons_self_eq (y : Nat) (l : List Nat) :
    (y :: l).count y = l.count y + 1 := by
  simp [List.count_cons]

theorem count_cons_ne_eq {x z : Nat} (l : List Nat) (h : ¬ x = z) :
    (x :: l).count z = l.count z := by
  simp [List.count_cons, h]

theorem includes_iff_count {a : List Nat} :
    ∀ {b : List Nat}, List.Sorted (· ≤ ·) a → List.Sorted (· ≤ ·) b →
      (includes a b = true ↔ ∀ z, b.count z ≤ a.count z) := by
  induction a with
  | nil =>
    intro b _ _
    cases b with
    | nil => simp [includes]
    | cons y ys =>
      simp only [includes]
      constructor
      · intro h; exact absurd h (by simp)
      · intro h
        exfalso
        have h1 := h y
        have h3 := count_cons_self_eq y ys
        simp only [List.count_nil] at h1
        omega
  | cons x xs ih =>
    intro b ha hb
    cases b with
    | nil => simp [includes]
    | cons y ys =>
      have hxs : List.Sorted (· ≤ ·) xs := (List.sorted_cons.mp ha).2
      have hys : List.Sorted (· ≤ ·) ys := (List.sorted_cons.mp hb).2
      simp only [includes]
      by_cases hlt : y < x
      · simp only [if_pos hlt]
        constructor
        · intro h; exact absurd h (by simp)
        · intro h
          exfalso
          have h1 := h y
          have h2 : (x :: xs).count y = 0 := count_eq_zero_of_lt_head ha hlt
          have h3 := count_cons_self_eq y ys
          omega
      · simp only [if_neg hlt]
        by_cases hgt : x < y
        · simp only [if_pos hgt]
          rw [ih hxs hb]
          constructor
          · intro h z
            have h1 := h z
            have h2 : (x :: xs).count z = xs.count z ∨
                (x :: xs).count z = xs.count z + 1 := by
              by_cases hzx : x = z
              · subst hzx; exact Or.inr (count_cons_self_eq x xs)
              · exact Or.inl (count_cons_ne_eq xs hzx)
            omega
          · intro h z
            have h1 := h z
            by_cases hzx : x = z
            · subst hzx
              have h0 : (y :: ys).count x = 0 := count_eq_zero_of_lt_head hb hgt
              omega
            · have h2 := count_cons_ne_eq (l := xs) hzx
              omega
        · have hxy : x = y := by omega
          subst hxy
          simp only [if_neg hgt]
          rw [ih hxs hys]
          constructor
          · intro h z
            have h1 := h z
            by_cases hzx : x = z
            · subst hzx
              have e1 := count_cons_self_eq x ys
              have e2 := count_cons_self_eq x xs
              omega
            · have e1 := count_cons_ne_eq (l := ys) hzx
              have e2 := count_cons_ne_eq (l := xs) hzx
              omega
          · intro h z
            have h1 := h z
            by_cases hzx : x = z
            · subst hzx
              have e1 := count_cons_self_eq x ys
              have e2 := count_cons_self_eq x xs
              omega
            · have e1 := count_cons_ne_eq (l := ys) hzx
              have e2 := count_cons_ne_eq (l := xs) hzx
              omega

theorem count_insertionSort (l : List Nat) (z : Nat) :
    (l.insertionSort (· ≤ ·)).count z = l.count z :=
  (List.perm_insertionSort (· ≤ ·) l).count_eq z

/-- Claim C4 counterexample: with `list = [1]` and `sublist = [1, 1]`,
every id occurring in the sublist appears in the list, yet
`KeySet(list).contains(KeySet(sublist))` is `false`, because
`std::includes` counts multiplicity. -/
theorem c4_contains_counterexample :
    ((KeySet.ofList [1]).contains (KeySet.ofList [1, 1]) = false) ∧
    (([1, 1] : List Nat).all (fun x => [1].contains x) = true) := by
  decide

/-- Claim C4 (amended): for all non-empty lists of ids,
`KeySet(list).contains(KeySet(sublist))` is true iff every id occurs in
`sublist` at most as many times as it occurs in `list` (multiset
inclusion, which for duplicate-free sublists is exactly "every id of
`sublist` appears in `list`"). -/
theorem c4_contains_iff_subcount (list sublist : List Nat)
    (h1 : list ≠ []) (h2 : sublist ≠ []) :
    ((KeySet.ofList list).contains (KeySet.ofList sublist) = true) ↔
      ∀ z, sublist.count z ≤ list.count z := by
  unfold KeySet.ofList KeySet.contains
  rw [includes_iff_count (List.sorted_insertionSort _ _)
    (List.sorted_insertionSort _ _)]
  constructor
  · intro h z
    have h3 := h z
    rwa [count_insertionSort, count_insertionSort] at h3
  · intro h z
    rw [count_insertionSort, count_insertionSort]
    exact h z

/-- Witness for claim C4's amended theorem at `list = [1, 2]`,
`sublist = [2]`. -/
theorem c4_contains_iff_subcount_witness :
    ((KeySet.ofList [1, 2]).contains (KeySet.ofList [2]) = true) ↔
      ∀ z, ([2] : List Nat).count z ≤ ([1, 2] : List Nat).count z :=
  c4_contains_iff_subcount [1, 2] [2] (by decide) (by decide)

/-- Claim C10: a KeySet constructed from a list of ids holds exactly the
ascending sort of that list — sorted, a permutation of the input, with
every id kept at its original multiplicity (no deduplication); the
single-id constructor holds exactly that id. -/
theorem c10_ofList_exact_sort (l : List Nat) :
    List.Sorted (· ≤ ·) (KeySet.ofList l).keys ∧
    (KeySet.ofList l).keys.Perm l ∧
    (∀ z, (KeySet.ofList l).keys.count z = l.count z) ∧
    (∀ k, (KeySet.single k).keys = [k]) :=
  ⟨List.sorted_insertionSort _ _, List.perm_insertionSort _ _,
    count_insertionSort l, fun _ => rfl⟩

/-! ### BlobSet (visitcache.cpp lines 32-68) -/

/-- A blob: a byte string, bytes as `Nat`. -/
abbrev Blob := List Nat

/-- `LidPosition`: (lid, byte offset, byte length) locating one blob
inside the packed buffer. -/
structure LidPosition where
  lid : Nat
  offset : Nat
  size : Nat
deriving DecidableEq, Repr

/-- `BlobSet`: position index plus the packed contiguous buffer. -/
structure BlobSet where
  positions : List LidPosition
  buffer : List Nat
deriving DecidableEq, Repr

/-- `getBufferSize(positions)`: 0 when empty, else last offset + last
size (visitcache.cpp lines 39-41). -/
def getBufferSize (p : List LidPosition) : Nat :=
  match p.getLast? with
  | none => 0
  | some last => last.offset + last.size

/-- `BlobSet::BlobSet()`: empty positions, empty buffer. -/
def BlobSet.emptyBS : BlobSet := ⟨[], []⟩

/-- `BlobSet::BlobSet(positions, buffer)`: adopt the buffer with logical
length `getBufferSize(positions)`. -/
def BlobSet.ofParts (positions : List LidPosition) (buffer : List Nat) : BlobSet :=
  ⟨positions, buffer.take (getBufferSize positions)⟩

/-- `BlobSet::append(lid, blob)`: record a position at the current
logical end, then write the blob's bytes at the end of the buffer. -/
def BlobSet.append (bs : BlobSet) (lid : Nat) (blob : Blob) : BlobSet :=
  { positions := bs.positions ++ [⟨lid, getBufferSize bs.positions, blob.length⟩],
    buffer := bs.buffer ++ blob }

/-- `BlobSet::get(lid)`: linear scan for the first position with this
lid; its byte range, or the empty range when absent. -/
def BlobSet.get (bs : BlobSet) (lid : Nat) : Blob :=
  match bs.positions.find? (fun p => decide (p.lid = lid)) with
  | none => []
  | some p => (bs.buffer.drop p.offset).take p.size

/-- Build a BlobSet by a sequence of `append` calls. -/
def buildBlobSet (appends : List (Nat × Blob)) : BlobSet :=
  appends.foldl (fun bs p => bs.append p.1 p.2) BlobSet.emptyBS

/-! ### Compression (modelled) and CompressedBlobSet
    (visitcache.cpp lines 70-104) -/

/-- `document::CompressionConfig::Type`: the compression kinds relevant
here.  The C++ enum's `NONE` and `LZ4` members are what visitcache.cpp
mentions; `ZSTD_` stands for the remaining specific codecs. -/
inductive CompressionType where
  | NONE
  | LZ4
  | ZSTD_
deriving DecidableEq, Repr

/-- Modelled from the spec: the external compression routine of the
document module (not part of the two embedded source files).  §6 of the
spec: `compress(config, input bytes) -> (actual-kind-used, output
bytes)`, `decompress(kind, expected-length, input bytes) -> output
bytes`; §3: a CompressedBlobSet is "reversible via decompression", i.e.
decompressing what compress produced, at the original length, restores
the original bytes. -/
structure Codec where
  compress : CompressionType → List Nat → CompressionType × List Nat
  decompress : CompressionType → Nat → List Nat → List Nat
  round_trip : ∀ cfg data,
    decompress (compress cfg data).1 data.length (compress cfg data).2 = data

/-- The trivial codec: every configuration is executed as "none"
(identity), a legal behaviour of the spec's compression routine. -/
def idCodec : Codec where
  compress := fun _ data => (CompressionType.NONE, data)
  decompress := fun _ _ data => data
  round_trip := fun _ _ => rfl

/-- `CompressedBlobSet`: stored compression kind, the position index
copied verbatim, and the compressed buffer. -/
structure CompressedBlobSet where
  compression : CompressionType
  positions : List LidPosition
  buffer : List Nat
deriving DecidableEq, Repr

/-- `CompressedBlobSet::CompressedBlobSet()` (visitcache.cpp lines
70-75): empty positions, empty buffer, and `_compression` initialised to
`CompressionConfig::Type::LZ4`. -/
def CompressedBlobSet.default' : CompressedBlobSet :=
  ⟨CompressionType.LZ4, [], []⟩

/-- `CompressedBlobSet::CompressedBlobSet(compression, uncompressed)`
(visitcache.cpp lines 77-89): copy the positions; when they are
non-empty compress the whole buffer and store the kind the routine
actually used. -/
def CompressedBlobSet.ofBlobSet (c : Codec) (cfg : CompressionType)
    (uncompressed : BlobSet) : CompressedBlobSet :=
  if uncompressed.positions.isEmpty then ⟨cfg, uncompressed.positions, []⟩
  else
    let r := c.compress cfg uncompressed.buffer
    ⟨r.1, uncompressed.positions, r.2⟩

/-- `CompressedBlobSet::getBlobSet()` (visitcache.cpp lines 91-100):
when positions are non-empty, decompress the buffer at the expected
length `getBufferSize(_positions)`; wrap it with the stored positions. -/
def CompressedBlobSet.getBlobSet (c : Codec) (s : CompressedBlobSet) : BlobSet :=
  let uncompressed :=
    if s.positions.isEmpty then []
    else c.decompress s.compression (getBufferSize s.positions) s.buffer
  BlobSet.ofParts s.positions uncompressed

/-- `CompressedBlobSet::empty` (header accessor, spec §4.3): true iff no
positions. -/
def CompressedBlobSet.emptyC (s : CompressedBlobSet) : Bool :=
  s.positions.isEmpty

/-! #### Round-trip (claim C1) -/

/-- The packing invariant of an appended BlobSet: the buffer's length
equals the last position's offset plus size. -/
def bufInv (bs : BlobSet) : Prop := bs.buffer.length = getBufferSize bs.positions

theorem bufInv_empty : bufInv BlobSet.emptyBS := rfl

theorem bufInv_append {bs : BlobSet} (h : bufInv bs) (lid : Nat) (blob : Blob) :
    bufInv (bs.append lid blob) := by
  unfold bufInv BlobSet.append getBufferSize at *
  simp [List.getLast?_concat]
  omega

theorem bufInv_build (appends : List (Nat × Blob)) : bufInv (buildBlobSet appends) := by
  unfold buildBlobSet
  generalize hbs : BlobSet.emptyBS = bs0
  have h0 : bufInv bs0 := hbs ▸ bufInv_empty
  clear hbs
  induction appends generalizing bs0 with
  | nil => exact h0
  | cons p rest ih => exact ih _ (bufInv_append h0 p.1 p.2)

/-- Compressing and decompressing restores an appended BlobSet exactly. -/
theorem getBlobSet_ofBlobSet {bs : BlobSet} (h : bufInv bs)
    (c : Codec) (cfg : CompressionType) :
    (CompressedBlobSet.ofBlobSet c cfg bs).getBlobSet c = bs := by
  obtain ⟨ps, buf⟩ := bs
  unfold bufInv at h
  simp only at h
  cases ps with
  | nil =>
    have hbuf : buf = [] := by
      have h0 : buf.length = 0 := by simpa [getBufferSize] using h
      exact List.length_eq_zero.mp h0
    subst hbuf
    rfl
  | cons q qs =>
    have hlen : getBufferSize (q :: qs) = buf.length := h.symm
    show BlobSet.ofParts (q :: qs)
        (c.decompress (c.compress cfg buf).1 (getBufferSize (q :: qs))
          (c.compress cfg buf).2)
      = ⟨q :: qs, buf⟩
    unfold BlobSet.ofParts
    rw [hlen, c.round_trip cfg buf, List.take_length]

/-- Claim C1: for every BlobSet built by a sequence of `append(lid,
blob)` calls and every codec and configuration (including "none"),
constructing `CompressedBlobSet(config, blobset)` and calling
`getBlobSet()` yields a BlobSet whose `get(id)` is byte-identical to
`blobset.get(id)` for every id that was appended. -/
theorem c1_compress_roundtrip (c : Codec) (cfg : CompressionType)
    (appends : List (Nat × Blob)) (lid : Nat)
    (hmem : lid ∈ appends.map Prod.fst) :
    ((CompressedBlobSet.ofBlobSet c cfg (buildBlobSet appends)).getBlobSet c).get lid
      = (buildBlobSet appends).get lid := by
  rw [getBlobSet_ofBlobSet (bufInv_build appends)]

/-- Witness for claim C1 at a two-append BlobSet under the identity
("none") codec. -/
theorem c1_compress_roundtrip_witness :
    (1 ∈ ([(1, [7, 8]), (2, [9])] : List (Nat × Blob)).map Prod.fst) ∧
    ((CompressedBlobSet.ofBlobSet idCodec CompressionType.NONE
        (buildBlobSet [(1, [7, 8]), (2, [9])])).getBlobSet idCodec).get 1
      = (buildBlobSet [(1, [7, 8]), (2, [9])]).get 1 :=
  ⟨by decide,
    c1_compress_roundtrip idCodec CompressionType.NONE
      [(1, [7, 8]), (2, [9])] 1 (by decide)⟩

/-- Claim C8 counterexample: the default-constructed CompressedBlobSet
stores compression kind `LZ4`, not the neutral "none". -/
theorem c8_default_counterexample :
    CompressedBlobSet.default'.compression = CompressionType.LZ4 ∧
    CompressedBlobSet.default'.compression ≠ CompressionType.NONE := by
  decide

/-- Claim C8 (amended): a default-constructed CompressedBlobSet is empty
(`empty()` is true, the position index has no entries, the buffer is
empty), but its stored compression kind is the specific codec `LZ4`, not
the neutral "none". -/
theorem c8_default_empty :
    CompressedBlobSet.default'.emptyC = true ∧
    CompressedBlobSet.default'.positions = [] ∧
    CompressedBlobSet.default'.buffer = [] ∧
    CompressedBlobSet.default'.compression = CompressionType.LZ4 := by
  decide

/-! ### VisitCollector and BackingStore::read
    (visitcache.cpp lines 108-135) -/

/-- `VisitCollector::visit(lid, buf)` (lines 120-125) folded over the
sequence of callbacks the underlying store delivers: a blob is appended
only when `buf.size() > 0`. -/
def collectVisits (delivered : List (Nat × Blob)) : BlobSet :=
  delivered.foldl
    (fun bs p => if p.2.length > 0 then bs.append p.1 p.2 else bs)
    BlobSet.emptyBS

/-- `VisitCache::BackingStore::read(key, blobs)` (lines 129-135), with
the underlying store's callback sequence made explicit as the list
`delivered` (spec §6: the callback is invoked zero or more times, in
unspecified order): collect the blobs, compress them, and report
`!blobs.empty()`. -/
def backingStoreRead (c : Codec) (cfg : CompressionType)
    (delivered : List (Nat × Blob)) : CompressedBlobSet × Bool :=
  let blobs := CompressedBlobSet.ofBlobSet c cfg (collectVisits delivered)
  (blobs, !blobs.emptyC)

theorem ofBlobSet_positions (c : Codec) (cfg : CompressionType) (bs : BlobSet) :
    (CompressedBlobSet.ofBlobSet c cfg bs).positions = bs.positions := by
  unfold CompressedBlobSet.ofBlobSet
  split <;> rfl

theorem collectVisits_go (delivered : List (Nat × Blob)) (bs0 : BlobSet) :
    ((delivered.foldl
        (fun bs p => if p.2.length > 0 then bs.append p.1 p.2 else bs)
        bs0).positions.map LidPosition.lid
      = bs0.positions.map LidPosition.lid
        ++ (delivered.filter (fun p => decide (p.2.length > 0))).map Prod.fst) ∧
    ((delivered.foldl
        (fun bs p => if p.2.length > 0 then bs.append p.1 p.2 else bs)
        bs0).buffer
      = bs0.buffer
        ++ ((delivered.filter (fun p => decide (p.2.length > 0))).map Prod.snd).flatten) := by
  induction delivered generalizing bs0 with
  | nil => simp
  | cons p rest ih =>
    by_cases hp : p.2.length > 0
    · have e1 : (p :: rest).foldl
          (fun bs q => if q.2.length > 0 then bs.append q.1 q.2 else bs) bs0
          = rest.foldl
            (fun bs q => if q.2.length > 0 then bs.append q.1 q.2 else bs)
            (bs0.append p.1 p.2) := by
        simp [hp]
      have e2 : (p :: rest).filter (fun q => decide (q.2.length > 0))
          = p :: rest.filter (fun q => decide (q.2.length > 0)) := by
        simp [hp]
      obtain ⟨ih1, ih2⟩ := ih (bs0.append p.1 p.2)
      rw [e1, e2]
      refine ⟨?_, ?_⟩
      · rw [ih1]
        simp [BlobSet.append, List.append_assoc]
      · rw [ih2]
        simp [BlobSet.append, List.append_assoc]
    · have e1 : (p :: rest).foldl
          (fun bs q => if q.2.length > 0 then bs.append q.1 q.2 else bs) bs0
          = rest.foldl
            (fun bs q => if q.2.length > 0 then bs.append q.1 q.2 else bs)
            bs0 := by
        simp [hp]
      have e2 : (p :: rest).filter (fun q => decide (q.2.length > 0))
          = rest.filter (fun q => decide (q.2.length > 0)) := by
        simp [hp]
      rw [e1, e2]
      exact ih bs0

/-- Claim C7: the backing-store read skips every zero-length blob the
callback delivers and appends every blob of positive length (the
collected position index lists exactly the positively-sized deliveries,
in order, and the packed buffer is their concatenation), and it reports
`found = true` iff the resulting CompressedBlobSet is non-empty. -/
theorem c7_backing_read_skips_empty (c : Codec) (cfg : CompressionType)
    (delivered : List (Nat × Blob)) :
    ((collectVisits delivered).positions.map LidPosition.lid
      = (delivered.filter (fun p => decide (p.2.length > 0))).map Prod.fst) ∧
    ((collectVisits delivered).buffer
      = ((delivered.filter (fun p => decide (p.2.length > 0))).map Prod.snd).flatten) ∧
    ((backingStoreRead c cfg delivered).2 = true ↔
      ¬ ((backingStoreRead c cfg delivered).1.emptyC = true)) := by
  obtain ⟨h1, h2⟩ := collectVisits_go delivered BlobSet.emptyBS
  refine ⟨by simpa [collectVisits] using h1, by simpa [collectVisits] using h2, ?_⟩
  unfold backingStoreRead
  cases hE : (CompressedBlobSet.ofBlobSet c cfg (collectVisits delivered)).emptyC <;>
    simp [hE]

/-! ### Dense tensor builder cell addressing
    (direct_dense_tensor_builder.cpp lines 14-34) -/

/-- The `size_t` modulus on the 64-bit targets vespa builds for. -/
def SIZE_T_MOD : Nat := 2 ^ 64

/-- `calculateCellsSize(dimensionsMeta)` (lines 14-22): the product of
all dimension sizes, accumulated in `size_t` arithmetic.  This is the
size the builder's cell array is constructed with (line 40). -/
def calculateCellsSize (dimensionsMeta : List Nat) : Nat :=
  dimensionsMeta.foldl (fun cellsSize d => cellsSize * d % SIZE_T_MOD) 1

/-- `calculateCellAddress(address, dimensionsMeta)` (lines 24-34): the
mixed-radix value of the address, accumulated in `size_t` arithmetic.
The asserted precondition `address.size() == dimensionsMeta.size()`
appears as a hypothesis of the theorems below. -/
def calculateCellAddress (address dimensionsMeta : List Nat) : Nat :=
  (address.zip dimensionsMeta).foldl
    (fun result p => (result * p.2 % SIZE_T_MOD + p.1) % SIZE_T_MOD) 0

/-- Claim C9 counterexample: with dimension sizes `[2^32, 2^32, 2]` the
`size_t` product wraps to 0, so for the in-range address `[0, 0, 0]` the
computed cell address (0) is not below the cell-array size the builder
is constructed with, and `insertCell`'s bound assertion fails. -/
theorem c9_overflow_counterexample :
    (([0, 0, 0] : List Nat).length = ([2 ^ 32, 2 ^ 32, 2] : List Nat).length) ∧
    ((([0, 0, 0] : List Nat).zip [2 ^ 32, 2 ^ 32, 2]).all
      (fun p => decide (p.1 < p.2)) = true) ∧
    ¬ (calculateCellAddress [0, 0, 0] [2 ^ 32, 2 ^ 32, 2]
        < calculateCellsSize [2 ^ 32, 2 ^ 32, 2]) := by
  refine ⟨rfl, by decide, ?_⟩
  show ¬ (calculateCellAddress [0, 0, 0] [2 ^ 32, 2 ^ 32, 2]
      < calculateCellsSize [2 ^ 32, 2 ^ 32, 2])
  have h1 : calculateCellAddress [0, 0, 0] [2 ^ 32, 2 ^ 32, 2] = 0 := by decide
  have h2 : calculateCellsSize [2 ^ 32, 2 ^ 32, 2] = 0 := by decide
  omega

theorem forall₂_lt_pos {a d : List Nat} (h : List.Forall₂ (· < ·) a d) :
    ∀ x ∈ d, 0 < x := by
  induction h with
  | nil => intro x hx; cases hx
  | cons h1 _ ih =>
    intro x hx
    rcases List.mem_cons.mp hx with rfl | hx
    · omega
    · exact ih x hx

theorem cellsSize_go (dims : List Nat) :
    ∀ acc : Nat, (∀ x ∈ dims, 0 < x) → acc * dims.prod < SIZE_T_MOD →
      dims.foldl (fun cellsSize d => cellsSize * d % SIZE_T_MOD) acc
        = acc * dims.prod := by
  induction dims with
  | nil => intro acc _ _; simp
  | cons d ds ih =>
    intro acc hpos hbound
    have hdspos : 0 < ds.prod :=
      List.prod_pos (fun x hx => hpos x (List.mem_cons_of_mem d hx))
    have hstep : acc * d ≤ acc * d * ds.prod :=
      Nat.le_mul_of_pos_right _ hdspos
    have hlt : acc * d * ds.prod < SIZE_T_MOD := by
      rw [List.prod_cons, ← Nat.mul_assoc] at hbound
      exact hbound
    have hmod : acc * d % SIZE_T_MOD = acc * d :=
      Nat.mod_eq_of_lt (Nat.lt_of_le_of_lt hstep hlt)
    simp only [List.foldl_cons, hmod]
    rw [ih (acc * d) (fun x hx => hpos x (List.mem_cons_of_mem d hx)) hlt,
      List.prod_cons, Nat.mul_assoc]

theorem cellAddress_go {a d : List Nat} (h : List.Forall₂ (· < ·) a d) :
    ∀ r R : Nat, r < R → R * d.prod ≤ SIZE_T_MOD →
      (a.zip d).foldl
        (fun result p => (result * p.2 % SIZE_T_MOD + p.1) % SIZE_T_MOD) r
        < R * d.prod := by
  induction h with
  | nil =>
    intro r R hr _
    simpa using hr
  | @cons a0 d0 as ds h0 hrest ih =>
    intro r R hr hbound
    have hdspos : 0 < ds.prod := List.prod_pos (forall₂_lt_pos hrest)
    have hR : R * (d0 :: ds).prod = R * d0 * ds.prod := by
      rw [List.prod_cons, Nat.mul_assoc]
    have hstep : r * d0 + a0 < R * d0 := by
      calc r * d0 + a0 < r * d0 + d0 := by omega
        _ = (r + 1) * d0 := by rw [Nat.succ_mul]
        _ ≤ R * d0 := Nat.mul_le_mul_right d0 hr
    have hbound' : R * d0 * ds.prod ≤ SIZE_T_MOD := by
      rw [← hR]; exact hbound
    have hsmall : R * d0 ≤ R * d0 * ds.prod :=
      Nat.le_mul_of_pos_right _ hdspos
    have hlt1 : r * d0 < SIZE_T_MOD := by omega
    have hlt2 : r * d0 + a0 < SIZE_T_MOD := by omega
    have hmod1 : r * d0 % SIZE_T_MOD = r * d0 := Nat.mod_eq_of_lt hlt1
    have hmod2 : (r * d0 + a0) % SIZE_T_MOD = r * d0 + a0 :=
      Nat.mod_eq_of_lt hlt2
    simp only [List.zip_cons_cons, List.foldl_cons, hmod1, hmod2]
    rw [hR]
    exact ih (r * d0 + a0) (R * d0) hstep hbound'

/-- Claim C9 (amended): provided the true product of the dimension sizes
does not overflow `size_t` (is below `2 ^ 64`), every address whose
components are pointwise below the dimension sizes (`Forall₂` also makes
the lengths equal, which is `insertCell`'s first assertion) yields
`calculateCellAddress < calculateCellsSize`, and the cells size equals
the true product — so both assertions in `insertCell` hold and the cell
write is in bounds. -/
theorem c9_cell_address_in_bounds (address dimensionsMeta : List Nat)
    (hlt : List.Forall₂ (· < ·) address dimensionsMeta)
    (hfit : dimensionsMeta.prod < SIZE_T_MOD) :
    calculateCellAddress address dimensionsMeta
      < calculateCellsSize dimensionsMeta ∧
    calculateCellsSize dimensionsMeta = dimensionsMeta.prod := by
  have hpos : ∀ x ∈ dimensionsMeta, 0 < x := forall₂_lt_pos hlt
  have hsize : calculateCellsSize dimensionsMeta = dimensionsMeta.prod := by
    unfold calculateCellsSize
    rw [cellsSize_go dimensionsMeta 1 hpos (by omega), Nat.one_mul]
  refine ⟨?_, hsize⟩
  rw [hsize]
  have := cellAddress_go hlt 0 1 Nat.zero_lt_one (by omega)
  unfold calculateCellAddress
  omega

/-- Witness for claim C9's amended theorem at address `[1, 2]`,
dimensions `[3, 4]`. -/
theorem c9_cell_address_in_bounds_witness :
    calculateCellAddress [1, 2] [3, 4] < calculateCellsSize [3, 4] ∧
    calculateCellsSize [3, 4] = ([3, 4] : List Nat).prod :=
  c9_cell_address_in_bounds [1, 2] [3, 4]
    (List.Forall₂.cons (by omega)
      (List.Forall₂.cons (by omega) List.Forall₂.nil))
    (by decide)

/-! ### Association lists for the two secondary indices

`_lid2Id` and `_id2KeySet` are `std::map`/hash maps; they are modelled as
association lists with update-in-place insertion and erase. -/

/-- Lookup: value of the first pair with this key. -/
def lookupA {α : Type} (m : List (Nat × α)) (k : Nat) : Option α :=
  (m.find? (fun p => decide (p.1 = k))).map Prod.snd

/-- `map[k] = v`: replace the binding when present, else append. -/
def insertA {α : Type} (m : List (Nat × α)) (k : Nat) (v : α) : List (Nat × α) :=
  match m with
  | [] => [(k, v)]
  | p :: rest => if p.1 = k then (k, v) :: rest else p :: insertA rest k v

/-- `map.erase(k)`: drop the bindings for this key. -/
def eraseA {α : Type} (m : List (Nat × α)) (k : Nat) : List (Nat × α) :=
  m.filter (fun p => !decide (p.1 = k))

theorem lookupA_insertA {α : Type} (m : List (Nat × α)) (k : Nat) (v : α)
    (x : Nat) :
    lookupA (insertA m k v) x = if x = k then some v else lookupA m x := by
  induction m with
  | nil =>
    by_cases hx : x = k <;> simp [insertA, lookupA, List.find?, hx, Ne.symm]
  | cons p rest ih =>
    unfold insertA
    by_cases hp : p.1 = k
    · simp only [if_pos hp]
      by_cases hx : x = k
      · simp [lookupA, List.find?, hx]
      · have hpx : ¬ p.1 = x := by rw [hp]; exact fun hc => hx hc.symm
        simp [lookupA, List.find?, hx, Ne.symm hx, hpx, hp]
    · simp only [if_neg hp]
      by_cases hpx : p.1 = x
      · have hx : ¬ x = k := by rw [← hpx]; exact fun hc => hp hc
        simp [lookupA, List.find?, hpx, hx]
      · simp only [lookupA, List.find?] at ih ⊢
        simp only [hpx, decide_eq_true_eq, if_neg hpx]
        simpa [lookupA, List.find?] using ih

theorem lookupA_eraseA {α : Type} (m : List (Nat × α)) (k : Nat) (x : Nat) :
    lookupA (eraseA m k) x = if x = k then none else lookupA m x := by
  induction m with
  | nil => simp [eraseA, lookupA]
  | cons p rest ih =>
    unfold eraseA at ih ⊢
    by_cases hp : p.1 = k
    · rw [List.filter_cons_of_neg (by simp [hp])]
      by_cases hx : x = k
      · simpa [hx] using ih
      · have hpx : ¬ p.1 = x := by rw [hp]; exact fun hc => hx hc.symm
        simpa [lookupA, List.find?, hpx, hx] using ih
    · rw [List.filter_cons_of_pos (by simp [hp])]
      by_cases hpx : p.1 = x
      · have hx : ¬ x = k := by rw [← hpx]; exact fun hc => hp hc
        simp [lookupA, List.find?, hpx, hx]
      · simp only [lookupA, List.find?, hpx, decide_eq_true_eq, if_neg hpx]
        simpa [lookupA, List.find?] using ih

/-- Lookup after writing every key of `keys` to the same value `r`. -/
theorem lookupA_insert_fold {α : Type} (keys : List Nat) (r : α)
    (m : List (Nat × α)) (x : Nat) :
    lookupA (keys.foldl (fun acc sub => insertA acc sub r) m) x
      = if x ∈ keys then some r else lookupA m x := by
  induction keys generalizing m with
  | nil => simp
  | cons key rest ih =>
    simp only [List.foldl_cons]
    rw [ih (insertA m key r), lookupA_insertA]
    by_cases hx1 : x ∈ rest
    · simp [hx1, List.mem_cons]
    · by_cases hx2 : x = key
      · simp [hx1, hx2]
      · simp [hx1, hx2, List.mem_cons]

/-- Lookup after erasing every key of `keys`. -/
theorem lookupA_erase_fold {α : Type} (keys : List Nat)
    (m : List (Nat × α)) (x : Nat) :
    lookupA (keys.foldl (fun acc sub => eraseA acc sub) m) x
      = if x ∈ keys then none else lookupA m x := by
  induction keys generalizing m with
  | nil => simp
  | cons key rest ih =>
    simp only [List.foldl_cons]
    rw [ih (eraseA m key), lookupA_eraseA]
    by_cases hx1 : x ∈ rest
    · simp [hx1, List.mem_cons]
    · by_cases hx2 : x = key
      · simp [hx1, hx2]
      · simp [hx1, hx2, List.mem_cons]

/-! ### The bounded compressed cache

The generic bounded LRU cache (`vespalib::cache`, the `Parent` of
`VisitCache::Cache`) is not among the embedded source files.  Modelled
from the spec (§4.5, §4.3): an entry table in most-recently-used-first
order, byte accounting with LRU eviction through the same removal path
as explicit invalidation, hit and miss counters, and the two secondary
indices of visitcache.cpp.  The operations `readSet`,
`locateAndInvalidateOtherSubsets`, `findSetsContaining`, `removeKey`,
`onInsert` and `onRemove` are embedded from visitcache.cpp lines
143-232. -/

/-- The cache state: entries (MRU first), the two secondary indices, and
the hit/miss counters. -/
structure CacheState where
  entries : List (KeySet × CompressedBlobSet)
  lid2Id : List (Nat × Nat)
  id2KeySet : List (Nat × KeySet)
  hits : Nat
  misses : Nat
deriving Repr

/-- A freshly constructed cache. -/
def initState : CacheState := ⟨[], [], [], 0, 0⟩

/-- The context a cache operates in: codec, compression configuration,
the underlying document store (lid to blob, `[]` meaning absent), and
the byte capacity. -/
structure CacheCtx where
  codec : Codec
  cfg : CompressionType
  store : Nat → Blob
  capacity : Nat

/-- The representative id of a cached KeySet:
`key.getKeys().front()` (visitcache.cpp line 219). -/
def repOf (k : KeySet) : Nat := k.keys.headD 0

/-- `VisitCache::Cache::onInsert(key)` (lines 217-224): map the
representative to the key set and every lid to the representative. -/
def onInsert (s : CacheState) (k : KeySet) : CacheState :=
  { s with
    id2KeySet := insertA s.id2KeySet (repOf k) k,
    lid2Id := k.keys.foldl (fun m sub => insertA m sub (repOf k)) s.lid2Id }

/-- `VisitCache::Cache::onRemove(key)` (lines 226-232): erase every lid
of the key set from the lid index and the representative from the
representative index. -/
def onRemove (s : CacheState) (k : KeySet) : CacheState :=
  { s with
    lid2Id := k.keys.foldl (fun m sub => eraseA m sub) s.lid2Id,
    id2KeySet := eraseA s.id2KeySet (repOf k) }

/-- Value stored for a key, if the key is a live entry. -/
def lookupEntry (s : CacheState) (k : KeySet) : Option CompressedBlobSet :=
  (s.entries.find? (fun e => decide (e.1 = k))).map Prod.snd

/-- `hasKey`: the key is a live entry. -/
def hasKey (s : CacheState) (k : KeySet) : Bool := (lookupEntry s k).isSome

/-- Erase one entry and run `onRemove` for it — the single removal path
the spec requires of every eviction and invalidation (§4.5). -/
def removeEntry (s : CacheState) (k : KeySet) : CacheState :=
  onRemove { s with entries := s.entries.filter (fun e => !decide (e.1 = k)) } k

/-- `invalidate(key)` of the generic cache: remove the entry (through
`onRemove`) when present; no effect otherwise. -/
def invalidate (s : CacheState) (k : KeySet) : CacheState :=
  if hasKey s k then removeEntry s k else s

/-- Modelled from the spec (§4.2/§4.3 accounting): the approximate byte
cost of an entry, position index plus compressed buffer
(`CompressedBlobSet::size()`, 12 bytes per position triple). -/
def CompressedBlobSet.sizeBytes (c : CompressedBlobSet) : Nat :=
  c.positions.length * 12 + c.buffer.length

/-- Total accounted size of the cache. -/
def totalSize (s : CacheState) : Nat :=
  (s.entries.map (fun e => e.2.sizeBytes)).sum

/-- LRU eviction loop: while over capacity, remove the least recently
used (last) entry through the common removal path.  The fuel is the
entry count, which bounds the number of possible evictions. -/
def evictFuel (cap : Nat) : Nat → CacheState → CacheState
  | 0, s => s
  | fuel + 1, s =>
    if totalSize s ≤ cap then s
    else
      match s.entries.getLast? with
      | none => s
      | some e => evictFuel cap fuel (removeEntry s e.1)

/-- Insert a fresh entry at the MRU position, update the indices via
`onInsert`, then evict until within the byte budget. -/
def insertEntry (cap : Nat) (s : CacheState) (k : KeySet)
    (v : CompressedBlobSet) : CacheState :=
  let s1 := onInsert { s with entries := (k, v) :: s.entries } k
  evictFuel cap s1.entries.length s1

/-- One multi-get against the underlying store for exactly the ids of
the key, collected and compressed by `BackingStore::read` (the store
delivers `(lid, store lid)` per requested lid; absent lids deliver the
empty blob, which the collector skips). -/
def fetchFromStore (ctx : CacheCtx) (key : KeySet) : CompressedBlobSet :=
  (backingStoreRead ctx.codec ctx.cfg
    (key.keys.map (fun lid => (lid, ctx.store lid)))).1

/-- The generic cache's `read` (get-or-compute, spec §4.5 step 3): on a
hit count it, promote the entry to MRU and return the stored value; on a
miss count it, fetch through the backing store and insert the result
keyed by the exact key (even an empty negative result is cached). -/
def readCache (ctx : CacheCtx) (s : CacheState) (key : KeySet) :
    CompressedBlobSet × CacheState :=
  match lookupEntry s key with
  | some v =>
    (v, { s with
            hits := s.hits + 1,
            entries := (key, v) :: s.entries.filter (fun e => !decide (e.1 = key)) })
  | none =>
    let v := fetchFromStore ctx key
    (v, insertEntry ctx.capacity { s with misses := s.misses + 1 } key v)

/-- `VisitCache::Cache::findSetsContaining(keys)` (lines 143-153): the
`std::set` (sorted, duplicate-free) of representatives found in the lid
index for the ids of `keys`. -/
def insertSorted (l : List Nat) (x : Nat) : List Nat :=
  match l with
  | [] => [x]
  | y :: ys =>
    if x < y then x :: y :: ys
    else if x = y then y :: ys
    else y :: insertSorted ys x

/-- Loop body of `findSetsContaining`: look one sub key up in the lid
index and add its representative, if any, to the found set. -/
def findStep (m : List (Nat × Nat)) (found : List Nat) (subKey : Nat) :
    List Nat :=
  match lookupA m subKey with
  | some r => insertSorted found r
  | none => found

def findSetsContaining (s : CacheState) (keys : KeySet) : List Nat :=
  keys.keys.foldl (findStep s.lid2Id) []

/-- Loop body of `locateAndInvalidateOtherSubsets` (visitcache.cpp lines
170-184): invalidate the key set `_id2KeySet[keyId]` maps to;
`operator[]` default-constructs an empty KeySet (and stores it) when the
representative is unexpectedly absent. -/
def invalidateRep (t : CacheState) (keyId : Nat) : CacheState :=
  match lookupA t.id2KeySet keyId with
  | some ks => invalidate t ks
  | none =>
    invalidate { t with id2KeySet := insertA t.id2KeySet keyId ⟨[]⟩ } ⟨[]⟩

def locateAndInvalidateOtherSubsets (s : CacheState) (keys : KeySet) :
    CacheState :=
  (findSetsContaining s keys).foldl invalidateRep s

/-- `VisitCache::Cache::readSet(key)` (lines 155-168): empty key — empty
result, cache untouched; otherwise invalidate overlapping other subsets
unless the key itself is live, then get-or-compute. -/
def readSet (ctx : CacheCtx) (s : CacheState) (key : KeySet) :
    CompressedBlobSet × CacheState :=
  if key.keys.isEmpty then (CompressedBlobSet.default', s)
  else
    readCache ctx
      (if hasKey s key then s else locateAndInvalidateOtherSubsets s key) key

/-- `VisitCache::Cache::removeKey(subKey)` (lines 206-215): look the lid
up in the lid index; when present, invalidate the key set its
representative maps to (again via `operator[]`). -/
def removeKey (s : CacheState) (subKey : Nat) : CacheState :=
  match lookupA s.lid2Id subKey with
  | some r =>
    match lookupA s.id2KeySet r with
    | some ks => invalidate s ks
    | none =>
      invalidate { s with id2KeySet := insertA s.id2KeySet r ⟨[]⟩ } ⟨[]⟩
  | none => s

/-- Cache states reachable through the public interface
(`VisitCache::read` always builds its KeySet with the sorting list
constructor; `VisitCache::remove` forwards to `removeKey`). -/
inductive Reachable (ctx : CacheCtx) : CacheState → Prop
  | init : Reachable ctx initState
  | read (lids : List Nat) {s : CacheState} :
      Reachable ctx s → Reachable ctx (readSet ctx s (KeySet.ofList lids)).2
  | remove (lid : Nat) {s : CacheState} :
      Reachable ctx s → Reachable ctx (removeKey s lid)

/-! ### The mirror invariant of the secondary indices (spec §3) -/

/-- Two key sets share no lid. -/
def disjKS (k1 k2 : KeySet) : Prop := ∀ x ∈ k1.keys, x ∉ k2.keys

/-- Live entries are well formed: non-empty sorted key sets, pairwise
lid-disjoint. -/
def goodEntries (s : CacheState) : Prop :=
  (∀ kv ∈ s.entries, kv.1.keys ≠ [] ∧ List.Sorted (· ≤ ·) kv.1.keys) ∧
  List.Pairwise (fun e1 e2 => disjKS e1.1 e2.1) s.entries

/-- The lid index holds exactly the lids of live entries, each pointing
at its entry's representative. -/
def lid2IdExact (s : CacheState) : Prop :=
  ∀ x r, lookupA s.lid2Id x = some r ↔
    ∃ kv ∈ s.entries, x ∈ kv.1.keys ∧ r = repOf kv.1

/-- The representative index holds exactly the representatives of live
entries, each pointing at its entry's key set. -/
def id2KeySetExact (s : CacheState) : Prop :=
  ∀ r k, lookupA s.id2KeySet r = some k ↔
    (∃ v, (k, v) ∈ s.entries) ∧ r = repOf k

/-- The full invariant: the indices are an exact mirror of the live
entries. -/
def mirror (s : CacheState) : Prop :=
  goodEntries s ∧ lid2IdExact s ∧ id2KeySetExact s

theorem disjKS_symm {k1 k2 : KeySet} (h : disjKS k1 k2) : disjKS k2 k1 :=
  fun x hx2 hx1 => h x hx1 hx2

theorem repOf_mem {k : KeySet} (h : k.keys ≠ []) : repOf k ∈ k.keys := by
  unfold repOf
  cases hk : k.keys with
  | nil => exact absurd hk h
  | cons a l => simp

theorem repOf_min {k : KeySet} (hne : k.keys ≠ [])
    (hs : List.Sorted (· ≤ ·) k.keys) : ∀ x ∈ k.keys, repOf k ≤ x := by
  unfold repOf
  cases hk : k.keys with
  | nil => exact absurd hk hne
  | cons a l =>
    intro x hx
    rw [hk] at hs
    rcases List.mem_cons.mp hx with rfl | hx
    · simp
    · simpa using (List.sorted_cons.mp hs).1 x hx

/-- Two live entries sharing a lid are the same entry. -/
theorem entries_overlap_eq {s : CacheState} (hg : goodEntries s)
    {e1 e2 : KeySet × CompressedBlobSet}
    (h1 : e1 ∈ s.entries) (h2 : e2 ∈ s.entries)
    {x : Nat} (hx1 : x ∈ e1.1.keys) (hx2 : x ∈ e2.1.keys) : e1 = e2 := by
  by_contra hne
  have hsymm : Symmetric (fun (e1 e2 : KeySet × CompressedBlobSet) => disjKS e1.1 e2.1) :=
    fun _ _ h => disjKS_symm h
  have := hg.2.forall hsymm h1 h2 hne
  exact this x hx1 hx2

theorem mem_of_lookupEntry {s : CacheState} {k : KeySet}
    {v : CompressedBlobSet} (h : lookupEntry s k = some v) :
    (k, v) ∈ s.entries := by
  unfold lookupEntry at h
  cases hf : s.entries.find? (fun e => decide (e.1 = k)) with
  | none => rw [hf] at h; cases h
  | some e =>
    rw [hf] at h
    have hmem := List.mem_of_find?_eq_some hf
    have hpred := List.find?_some hf
    have hk : e.1 = k := by simpa using hpred
    have hv : e.2 = v := by simpa using h
    rw [← hk, ← hv]
    exact hmem

theorem lookupEntry_isSome_of_mem {s : CacheState} {k : KeySet}
    {v : CompressedBlobSet} (h : (k, v) ∈ s.entries) :
    (lookupEntry s k).isSome = true := by
  unfold lookupEntry
  cases hf : s.entries.find? (fun e => decide (e.1 = k)) with
  | none =>
    exfalso
    rw [List.find?_eq_none] at hf
    have := hf (k, v) h
    simp at this
  | some e => rfl

theorem mirror_init : mirror initState := by
  refine ⟨⟨?_, ?_⟩, ?_, ?_⟩
  · intro kv hkv; cases hkv
  · exact List.Pairwise.nil
  · intro x r
    constructor
    · intro h; cases h
    · rintro ⟨kv, hkv, _⟩; cases hkv
  · intro r k
    constructor
    · intro h; cases h
    · rintro ⟨⟨v, hv⟩, _⟩; cases hv

theorem mem_entries_removeEntry {s : CacheState} {k : KeySet}
    {e : KeySet × CompressedBlobSet} :
    e ∈ (removeEntry s k).entries ↔ e ∈ s.entries ∧ ¬ e.1 = k := by
  show e ∈ s.entries.filter (fun e => !decide (e.1 = k)) ↔ _
  simp [List.mem_filter]

/-- Removing a live entry through the common removal path preserves the
mirror invariant. -/
theorem mirror_removeEntry {s : CacheState} {k : KeySet}
    {v : CompressedBlobSet} (hm : mirror s) (hkv : (k, v) ∈ s.entries) :
    mirror (removeEntry s k) := by
  obtain ⟨⟨hgood, hpair⟩, hlid, hid⟩ := hm
  have hkne : k.keys ≠ [] := (hgood (k, v) hkv).1
  refine ⟨⟨?_, ?_⟩, ?_, ?_⟩
  · intro kv hkv'
    exact hgood kv (mem_entries_removeEntry.mp hkv').1
  · have hsub : (removeEntry s k).entries.Sublist s.entries :=
      List.filter_sublist s.entries
    exact List.Pairwise.sublist hsub hpair
  · intro x r
    have hL : lookupA (removeEntry s k).lid2Id x
        = if x ∈ k.keys then none else lookupA s.lid2Id x :=
      lookupA_erase_fold k.keys s.lid2Id x
    rw [hL]
    by_cases hx : x ∈ k.keys
    · rw [if_pos hx]
      constructor
      · intro h; cases h
      · rintro ⟨kv, hkv', hxkv, _⟩
        obtain ⟨hkvmem, hkvne⟩ := mem_entries_removeEntry.mp hkv'
        have heq := entries_overlap_eq ⟨hgood, hpair⟩ hkvmem hkv hxkv hx
        exact (hkvne (congrArg Prod.fst heq)).elim
    · rw [if_neg hx]
      rw [hlid x r]
      constructor
      · rintro ⟨kv, hkvmem, hxkv, hr⟩
        refine ⟨kv, mem_entries_removeEntry.mpr ⟨hkvmem, ?_⟩, hxkv, hr⟩
        intro hk1
        rw [hk1] at hxkv
        exact hx hxkv
      · rintro ⟨kv, hkv', hxkv, hr⟩
        exact ⟨kv, (mem_entries_removeEntry.mp hkv').1, hxkv, hr⟩
  · intro r k'
    have hL : lookupA (removeEntry s k).id2KeySet r
        = if r = repOf k then none else lookupA s.id2KeySet r :=
      lookupA_eraseA s.id2KeySet (repOf k) r
    rw [hL]
    by_cases hr : r = repOf k
    · rw [if_pos hr]
      constructor
      · intro h; cases h
      · rintro ⟨⟨v', hv'⟩, hrk⟩
        obtain ⟨hmem', hne'⟩ := mem_entries_removeEntry.mp hv'
        have hrr : repOf k = repOf k' := hr.symm.trans hrk
        have hx1 : repOf k ∈ k'.keys := by
          rw [hrr]; exact repOf_mem (hgood (k', v') hmem').1
        have hx2 : repOf k ∈ k.keys := repOf_mem hkne
        have heq := entries_overlap_eq ⟨hgood, hpair⟩ hmem' hkv hx1 hx2
        exact (hne' (congrArg Prod.fst heq)).elim
    · rw [if_neg hr]
      rw [hid r k']
      constructor
      · rintro ⟨⟨v', hv'⟩, hrk⟩
        refine ⟨⟨v', mem_entries_removeEntry.mpr ⟨hv', ?_⟩⟩, hrk⟩
        intro hk1
        have hk1' : k' = k := hk1
        exact hr (by rw [hrk, hk1'])
      · rintro ⟨⟨v', hv'⟩, hrk⟩
        exact ⟨⟨v', (mem_entries_removeEntry.mp hv').1⟩, hrk⟩

theorem mirror_invalidate {s : CacheState} (hm : mirror s) (k : KeySet) :
    mirror (invalidate s k) := by
  unfold invalidate
  by_cases h : hasKey s k
  · rw [if_pos h]
    unfold hasKey at h
    cases hv : lookupEntry s k with
    | none => rw [hv] at h; cases h
    | some v => exact mirror_removeEntry hm (mem_of_lookupEntry hv)
  · rw [if_neg h]
    exact hm

/-- Transfer of the invariant to a state with the same entry set (up to
order) and identical indices. -/
theorem mirror_of_same {s t : CacheState} (hm : mirror s)
    (hmem : ∀ e, e ∈ t.entries ↔ e ∈ s.entries)
    (hpair : List.Pairwise (fun e1 e2 => disjKS e1.1 e2.1) t.entries)
    (hlid : t.lid2Id = s.lid2Id) (hid : t.id2KeySet = s.id2KeySet) :
    mirror t := by
  obtain ⟨⟨hgood, _⟩, hlidE, hidE⟩ := hm
  refine ⟨⟨fun kv hkv => hgood kv ((hmem kv).mp hkv), hpair⟩, ?_, ?_⟩
  · intro x r
    rw [hlid, hlidE x r]
    constructor
    · rintro ⟨kv, hkv, hx, hr⟩; exact ⟨kv, (hmem kv).mpr hkv, hx, hr⟩
    · rintro ⟨kv, hkv, hx, hr⟩; exact ⟨kv, (hmem kv).mp hkv, hx, hr⟩
  · intro r k
    rw [hid, hidE r k]
    constructor
    · rintro ⟨⟨v, hv⟩, hr⟩; exact ⟨⟨v, (hmem (k, v)).mpr hv⟩, hr⟩
    · rintro ⟨⟨v, hv⟩, hr⟩; exact ⟨⟨v, (hmem (k, v)).mp hv⟩, hr⟩

/-- A cache hit (promotion of the entry to the MRU position) preserves
the mirror invariant. -/
theorem mirror_hit {s : CacheState} {key : KeySet} {v : CompressedBlobSet}
    (hm : mirror s) (hv : lookupEntry s key = some v) :
    mirror { s with
      hits := s.hits + 1,
      entries := (key, v) :: s.entries.filter (fun e => !decide (e.1 = key)) } := by
  have hkv : (key, v) ∈ s.entries := mem_of_lookupEntry hv
  have hkne : key.keys ≠ [] := (hm.1.1 (key, v) hkv).1
  have hmemf : ∀ e : KeySet × CompressedBlobSet,
      e ∈ s.entries.filter (fun e => !decide (e.1 = key)) ↔
        e ∈ s.entries ∧ ¬ e.1 = key := by
    intro e; simp [List.mem_filter]
  refine mirror_of_same hm ?_ ?_ rfl rfl
  · intro e
    simp only [List.mem_cons]
    constructor
    · rintro (rfl | he)
      · exact hkv
      · exact ((hmemf e).mp he).1
    · intro he
      by_cases hek : e.1 = key
      · left
        have hx : repOf key ∈ e.1.keys := by
          rw [hek]; exact repOf_mem hkne
        exact entries_overlap_eq hm.1 he hkv hx (repOf_mem hkne)
      · right
        exact (hmemf e).mpr ⟨he, hek⟩
  · refine List.Pairwise.cons ?_ ?_
    · intro e he
      obtain ⟨hemem, hene⟩ := (hmemf e).mp he
      intro x hxkey hxe
      have heq := entries_overlap_eq hm.1 hkv hemem hxkey hxe
      exact hene (congrArg Prod.fst heq.symm)
    · exact List.Pairwise.sublist (List.filter_sublist s.entries) hm.1.2

/-- Inserting an entry whose key set is fresh, non-empty, sorted and
lid-disjoint from every live entry preserves the mirror invariant. -/
theorem mirror_insert {s : CacheState} {k : KeySet} (v : CompressedBlobSet)
    (hm : mirror s) (hkne : k.keys ≠ [])
    (hks : List.Sorted (· ≤ ·) k.keys)
    (hdisj : ∀ e ∈ s.entries, disjKS k e.1) :
    mirror (onInsert { s with entries := (k, v) :: s.entries } k) := by
  obtain ⟨⟨hgood, hpair⟩, hlid, hid⟩ := hm
  refine ⟨⟨?_, ?_⟩, ?_, ?_⟩
  · intro kv hkv
    rcases List.mem_cons.mp hkv with rfl | hkv
    · exact ⟨hkne, hks⟩
    · exact hgood kv hkv
  · exact List.Pairwise.cons (fun e he => hdisj e he) hpair
  · intro x r
    have hL : lookupA
        (onInsert { s with entries := (k, v) :: s.entries } k).lid2Id x
        = if x ∈ k.keys then some (repOf k) else lookupA s.lid2Id x :=
      lookupA_insert_fold k.keys (repOf k) s.lid2Id x
    rw [hL]
    by_cases hx : x ∈ k.keys
    · rw [if_pos hx]
      constructor
      · intro h
        injection h with h2
        exact ⟨(k, v), List.mem_cons_self _ _, hx, h2.symm⟩
      · rintro ⟨kv, hkv, hxkv, hr⟩
        rcases List.mem_cons.mp hkv with rfl | hkv'
        · rw [hr]
        · exact ((hdisj kv hkv' x hx) hxkv).elim
    · rw [if_neg hx]
      rw [hlid x r]
      constructor
      · rintro ⟨kv, hkv, hxkv, hr⟩
        exact ⟨kv, List.mem_cons_of_mem _ hkv, hxkv, hr⟩
      · rintro ⟨kv, hkv, hxkv, hr⟩
        rcases List.mem_cons.mp hkv with rfl | hkv'
        · exact (hx hxkv).elim
        · exact ⟨kv, hkv', hxkv, hr⟩
  · intro r k'
    have hL : lookupA
        (onInsert { s with entries := (k, v) :: s.entries } k).id2KeySet r
        = if r = repOf k then some k else lookupA s.id2KeySet r :=
      lookupA_insertA s.id2KeySet (repOf k) k r
    rw [hL]
    by_cases hr : r = repOf k
    · rw [if_pos hr]
      constructor
      · intro h
        injection h with h2
        rw [← h2]
        exact ⟨⟨v, List.mem_cons_self _ _⟩, hr⟩
      · rintro ⟨⟨v', hv'⟩, hrk⟩
        rcases List.mem_cons.mp hv' with heq | hv''
        · have hk'k : k' = k := congrArg Prod.fst heq
          rw [hk'k]
        · have hrr : repOf k = repOf k' := hr.symm.trans hrk
          have hx1 : repOf k ∈ k'.keys := by
            rw [hrr]
            exact repOf_mem (hgood (k', v') hv'').1
          exact
            ((hdisj (k', v') hv'' (repOf k) (repOf_mem hkne)) hx1).elim
    · rw [if_neg hr]
      rw [hid r k']
      constructor
      · rintro ⟨⟨v', hv'⟩, hrk⟩
        exact ⟨⟨v', List.mem_cons_of_mem _ hv'⟩, hrk⟩
      · rintro ⟨⟨v', hv'⟩, hrk⟩
        rcases List.mem_cons.mp hv' with heq | hv''
        · have hk'k : k' = k := congrArg Prod.fst heq
          exact (hr (by rw [hrk, hk'k])).elim
        · exact ⟨⟨v', hv''⟩, hrk⟩

/-- LRU eviction (which goes through the common removal path) preserves
the mirror invariant. -/
theorem mirror_evictFuel (cap : Nat) :
    ∀ (fuel : Nat) (s : CacheState), mirror s → mirror (evictFuel cap fuel s) := by
  intro fuel
  induction fuel with
  | zero => intro s hm; exact hm
  | succ n ih =>
    intro s hm
    unfold evictFuel
    by_cases h : totalSize s ≤ cap
    · rw [if_pos h]; exact hm
    · rw [if_neg h]
      cases hL : s.entries.getLast? with
      | none => exact hm
      | some e =>
        apply ih
        have hmem : e ∈ s.entries := List.mem_of_mem_getLast? hL
        exact mirror_removeEntry hm hmem

/-! #### `findSetsContaining` produces the sorted set of live
representatives overlapping the request -/

theorem mem_insertSorted (l : List Nat) (x y : Nat) :
    y ∈ insertSorted l x ↔ y = x ∨ y ∈ l := by
  induction l with
  | nil => simp [insertSorted]
  | cons a l ih =>
    unfold insertSorted
    by_cases h1 : x < a
    · rw [if_pos h1]
      simp only [List.mem_cons]
    · rw [if_neg h1]
      by_cases h2 : x = a
      · rw [if_pos h2]
        subst h2
        simp only [List.mem_cons]
        tauto
      · rw [if_neg h2]
        simp only [List.mem_cons, ih]
        tauto

theorem sorted_insertSorted {l : List Nat} (h : List.Sorted (· < ·) l)
    (x : Nat) : List.Sorted (· < ·) (insertSorted l x) := by
  induction l with
  | nil => simp [insertSorted]
  | cons a l ih =>
    unfold insertSorted
    obtain ⟨ha, hl⟩ := List.sorted_cons.mp h
    by_cases h1 : x < a
    · rw [if_pos h1]
      rw [List.sorted_cons]
      refine ⟨?_, h⟩
      intro b hb
      rcases List.mem_cons.mp hb with rfl | hb
      · exact h1
      · exact Nat.lt_trans h1 (ha b hb)
    · rw [if_neg h1]
      by_cases h2 : x = a
      · rw [if_pos h2]; exact h
      · rw [if_neg h2]
        rw [List.sorted_cons]
        refine ⟨?_, ih hl⟩
        intro b hb
        rcases (mem_insertSorted l x b).mp hb with rfl | hb
        · omega
        · exact ha b hb

theorem findStep_some {m : List (Nat × Nat)} {found : List Nat}
    {subKey r : Nat} (h : lookupA m subKey = some r) :
    findStep m found subKey = insertSorted found r := by
  unfold findStep
  rw [h]

theorem findStep_none {m : List (Nat × Nat)} {found : List Nat}
    {subKey : Nat} (h : lookupA m subKey = none) :
    findStep m found subKey = found := by
  unfold findStep
  rw [h]

theorem findSets_go_mem (keys : List Nat) (m : List (Nat × Nat)) :
    ∀ (acc : List Nat) (r : Nat),
      (r ∈ keys.foldl (findStep m) acc
        ↔ r ∈ acc ∨ ∃ x ∈ keys, lookupA m x = some r) := by
  induction keys with
  | nil => intro acc r; simp
  | cons key rest ih =>
    intro acc r
    simp only [List.foldl_cons]
    cases hx : lookupA m key with
    | none =>
      rw [findStep_none hx, ih]
      constructor
      · rintro (h | ⟨x, hx1, hx2⟩)
        · exact Or.inl h
        · exact Or.inr ⟨x, List.mem_cons_of_mem _ hx1, hx2⟩
      · rintro (h | ⟨x, hx1, hx2⟩)
        · exact Or.inl h
        · rcases List.mem_cons.mp hx1 with rfl | hx1
          · rw [hx] at hx2; cases hx2
          · exact Or.inr ⟨x, hx1, hx2⟩
    | some r0 =>
      rw [findStep_some hx, ih]
      constructor
      · rintro (h | ⟨x, hx1, hx2⟩)
        · rcases (mem_insertSorted acc r0 r).mp h with rfl | h
          · exact Or.inr ⟨key, List.mem_cons_self _ _, hx⟩
          · exact Or.inl h
        · exact Or.inr ⟨x, List.mem_cons_of_mem _ hx1, hx2⟩
      · rintro (h | ⟨x, hx1, hx2⟩)
        · exact Or.inl ((mem_insertSorted acc r0 r).mpr (Or.inr h))
        · rcases List.mem_cons.mp hx1 with rfl | hx1
          · rw [hx] at hx2
            injection hx2 with h2
            exact Or.inl ((mem_insertSorted acc r0 r).mpr (Or.inl h2.symm))
          · exact Or.inr ⟨x, hx1, hx2⟩

theorem mem_findSetsContaining {s : CacheState} {keys : KeySet} {r : Nat} :
    r ∈ findSetsContaining s keys ↔
      ∃ x ∈ keys.keys, lookupA s.lid2Id x = some r := by
  unfold findSetsContaining
  rw [findSets_go_mem keys.keys s.lid2Id [] r]
  simp

theorem findSets_go_sorted (keys : List Nat) (m : List (Nat × Nat)) :
    ∀ acc : List Nat, List.Sorted (· < ·) acc →
      List.Sorted (· < ·) (keys.foldl (findStep m) acc) := by
  induction keys with
  | nil => intro acc h; exact h
  | cons key rest ih =>
    intro acc h
    simp only [List.foldl_cons]
    cases hx : lookupA m key with
    | none => rw [findStep_none hx]; exact ih acc h
    | some r0 => rw [findStep_some hx]; exact ih _ (sorted_insertSorted h r0)

theorem nodup_findSetsContaining (s : CacheState) (keys : KeySet) :
    (findSetsContaining s keys).Nodup := by
  have hs : List.Sorted (· < ·) (findSetsContaining s keys) :=
    findSets_go_sorted keys.keys s.lid2Id [] (by simp)
  exact hs.imp (fun h => Nat.ne_of_lt h)

/-- Folding `invalidateRep` over a duplicate-free list of live
representatives that covers every entry overlapping the request
preserves the invariant and leaves no entry overlapping the request. -/
theorem invalidateRep_fold {keys : KeySet} :
    ∀ (R : List Nat) (t : CacheState), R.Nodup → mirror t →
      (∀ r ∈ R, ∃ e ∈ t.entries, repOf e.1 = r) →
      (∀ e ∈ t.entries, (∃ x ∈ keys.keys, x ∈ e.1.keys) → repOf e.1 ∈ R) →
      mirror (R.foldl invalidateRep t) ∧
        ∀ e ∈ (R.foldl invalidateRep t).entries, disjKS keys e.1 := by
  intro R
  induction R with
  | nil =>
    intro t _ hm _ hover
    refine ⟨hm, ?_⟩
    intro e he x hxkeys hxe
    exact absurd (hover e he ⟨x, hxkeys, hxe⟩) (by simp)
  | cons r R' ih =>
    intro t hnd hm hlive hover
    simp only [List.foldl_cons]
    obtain ⟨e, he, hre⟩ := hlive r (List.mem_cons_self _ _)
    have hlook : lookupA t.id2KeySet r = some e.1 :=
      (hm.2.2 r e.1).mpr ⟨⟨e.2, he⟩, hre.symm⟩
    have hstep : invalidateRep t r = removeEntry t e.1 := by
      unfold invalidateRep
      rw [hlook]
      have hhas : hasKey t e.1 = true := lookupEntry_isSome_of_mem he
      simp [invalidate, hhas]
    rw [hstep]
    have hm' : mirror (removeEntry t e.1) := mirror_removeEntry hm he
    apply ih (removeEntry t e.1) (List.nodup_cons.mp hnd).2 hm'
    · intro r'' hr''
      obtain ⟨e'', he'', hre''⟩ := hlive r'' (List.mem_cons_of_mem _ hr'')
      refine ⟨e'', ?_, hre''⟩
      rw [mem_entries_removeEntry]
      refine ⟨he'', ?_⟩
      intro heq
      have hrr : r'' = r := by rw [← hre'', heq, hre]
      rw [hrr] at hr''
      exact (List.nodup_cons.mp hnd).1 hr''
    · intro e' he' hov
      have he'm : e' ∈ t.entries := (mem_entries_removeEntry.mp he').1
      have hne : ¬ e'.1 = e.1 := (mem_entries_removeEntry.mp he').2
      have hrep := hover e' he'm hov
      rcases List.mem_cons.mp hrep with heq | h
      · exfalso
        have hx1 : r ∈ e'.1.keys := by
          rw [← heq]; exact repOf_mem (hm.1.1 e' he'm).1
        have hx2 : r ∈ e.1.keys := by
          rw [← hre]; exact repOf_mem (hm.1.1 e he).1
        have heq2 := entries_overlap_eq hm.1 he'm he hx1 hx2
        exact hne (congrArg Prod.fst heq2)
      · exact h

/-- `locateAndInvalidateOtherSubsets` preserves the invariant, and
afterwards no live entry shares a lid with the request. -/
theorem mirror_locate {s : CacheState} (hm : mirror s) (keys : KeySet) :
    mirror (locateAndInvalidateOtherSubsets s keys) ∧
      ∀ e ∈ (locateAndInvalidateOtherSubsets s keys).entries,
        disjKS keys e.1 := by
  unfold locateAndInvalidateOtherSubsets
  apply invalidateRep_fold (findSetsContaining s keys) s
    (nodup_findSetsContaining s keys) hm
  · intro r hr
    obtain ⟨x, hxk, hxl⟩ := mem_findSetsContaining.mp hr
    obtain ⟨kv, hkv, _, hrr⟩ := (hm.2.1 x r).mp hxl
    exact ⟨kv, hkv, hrr.symm⟩
  · intro e he hov
    obtain ⟨x, hxkeys, hxe⟩ := hov
    have hlook : lookupA s.lid2Id x = some (repOf e.1) :=
      (hm.2.1 x (repOf e.1)).mpr ⟨e, he, hxe, rfl⟩
    exact mem_findSetsContaining.mpr ⟨x, hxkeys, hlook⟩

/-- `readSet` on a key built by the sorting constructor preserves the
mirror invariant. -/
theorem mirror_readSet {ctx : CacheCtx} {s : CacheState} (hm : mirror s)
    (lids : List Nat) :
    mirror (readSet ctx s (KeySet.ofList lids)).2 := by
  have hsorted : List.Sorted (· ≤ ·) (KeySet.ofList lids).keys :=
    List.sorted_insertionSort _ _
  unfold readSet
  by_cases hE : (KeySet.ofList lids).keys.isEmpty
  · rw [if_pos hE]
    exact hm
  · rw [if_neg hE]
    have hkne : (KeySet.ofList lids).keys ≠ [] := by
      intro hc
      rw [hc] at hE
      exact hE rfl
    by_cases hHas : hasKey s (KeySet.ofList lids)
    · rw [if_pos hHas]
      unfold readCache
      unfold hasKey at hHas
      cases hv : lookupEntry s (KeySet.ofList lids) with
      | none => rw [hv] at hHas; cases hHas
      | some v => exact mirror_hit hm hv
    · rw [if_neg hHas]
      obtain ⟨hm1, hdisj⟩ := mirror_locate hm (KeySet.ofList lids)
      unfold readCache
      cases hv : lookupEntry
          (locateAndInvalidateOtherSubsets s (KeySet.ofList lids))
          (KeySet.ofList lids) with
      | some v =>
        exfalso
        have hkv := mem_of_lookupEntry hv
        exact hdisj (KeySet.ofList lids, v) hkv (repOf (KeySet.ofList lids))
          (repOf_mem hkne) (repOf_mem hkne)
      | none =>
        apply mirror_evictFuel
        apply mirror_insert
        · exact hm1
        · exact hkne
        · exact hsorted
        · intro e he
          exact hdisj e he

/-- `removeKey` preserves the mirror invariant. -/
theorem mirror_removeKey {s : CacheState} (hm : mirror s) (subKey : Nat) :
    mirror (removeKey s subKey) := by
  unfold removeKey
  cases hx : lookupA s.lid2Id subKey with
  | none => exact hm
  | some r =>
    obtain ⟨kv, hkv, _, hr⟩ := (hm.2.1 subKey r).mp hx
    have hlook : lookupA s.id2KeySet r = some kv.1 :=
      (hm.2.2 r kv.1).mpr ⟨⟨kv.2, hkv⟩, hr⟩
    show mirror (match lookupA s.id2KeySet r with
      | some ks => invalidate s ks
      | none =>
        invalidate { s with id2KeySet := insertA s.id2KeySet r ⟨[]⟩ } ⟨[]⟩)
    rw [hlook]
    exact mirror_invalidate hm kv.1

/-- Every state reachable through the public interface satisfies the
mirror invariant. -/
theorem reachable_mirror {ctx : CacheCtx} {s : CacheState}
    (h : Reachable ctx s) : mirror s := by
  induction h with
  | init => exact mirror_init
  | read lids _ ih => exact mirror_readSet ih lids
  | remove lid _ ih => exact mirror_removeKey ih lid

/-! ### The cache claims -/

/-- A concrete context for the executable cache scenarios: identity
("none") codec, a one-byte blob stored per lid, ample capacity. -/
def demoCtx : CacheCtx :=
  ⟨idCodec, CompressionType.NONE, fun lid => [lid % 256], 1000000⟩

/-- State after `readSet([1,2,3])` on a fresh cache. -/
def c2s1 : CacheState :=
  (readSet demoCtx initState (KeySet.ofList [1, 2, 3])).2

/-- State after the subsequent `readSet([2,4])`. -/
def c2s2 : CacheState := (readSet demoCtx c2s1 (KeySet.ofList [2, 4])).2

/-- Claim C2: after caching `readSet([1,2,3])`, a `readSet([2,4])`
(which shares id 2 and is not itself a live entry) evicts the `[1,2,3]`
entry, so a later `readSet([1,2,3])` is a miss again (it increments the
miss counter and not the hit counter). -/
theorem c2_overlap_invalidation :
    (hasKey c2s1 (KeySet.ofList [1, 2, 3]) = true) ∧
    (hasKey c2s1 (KeySet.ofList [2, 4]) = false) ∧
    (hasKey c2s2 (KeySet.ofList [1, 2, 3]) = false) ∧
    (c2s2.entries.all
      (fun e => !decide (e.1 = KeySet.ofList [1, 2, 3])) = true) ∧
    ((readSet demoCtx c2s2 (KeySet.ofList [1, 2, 3])).2.misses
      = c2s2.misses + 1) ∧
    ((readSet demoCtx c2s2 (KeySet.ofList [1, 2, 3])).2.hits = c2s2.hits) := by
  decide

/-- Claim C3: in every reachable cache state — in particular after every
insert and after every removal or eviction — the two secondary indices
exactly mirror the live entries: every lid of every live entry's KeySet
appears in the lid index pointing at that entry's representative (its
minimum lid — the head of the sorted key set), every representative
appears in the representative index pointing at its unique live KeySet,
and no stale lids or representatives of removed entries remain (every
binding of either index belongs to a live entry). -/
theorem c3_indices_mirror (ctx : CacheCtx) (s : CacheState)
    (h : Reachable ctx s) :
    (∀ kv ∈ s.entries, ∀ x ∈ kv.1.keys,
      lookupA s.lid2Id x = some (repOf kv.1)) ∧
    (∀ kv ∈ s.entries, kv.1.keys ≠ [] ∧ ∀ x ∈ kv.1.keys, repOf kv.1 ≤ x) ∧
    (∀ kv ∈ s.entries, lookupA s.id2KeySet (repOf kv.1) = some kv.1) ∧
    (∀ x r, lookupA s.lid2Id x = some r →
      ∃ kv ∈ s.entries, x ∈ kv.1.keys ∧ r = repOf kv.1) ∧
    (∀ r k, lookupA s.id2KeySet r = some k →
      (∃ v, (k, v) ∈ s.entries) ∧ r = repOf k) := by
  obtain ⟨⟨hgood, hpair⟩, hlid, hid⟩ := reachable_mirror h
  refine ⟨?_, ?_, ?_, ?_, ?_⟩
  · intro kv hkv x hx
    exact (hlid x (repOf kv.1)).mpr ⟨kv, hkv, hx, rfl⟩
  · intro kv hkv
    exact ⟨(hgood kv hkv).1, repOf_min (hgood kv hkv).1 (hgood kv hkv).2⟩
  · intro kv hkv
    exact (hid (repOf kv.1) kv.1).mpr ⟨⟨kv.2, hkv⟩, rfl⟩
  · intro x r hx
    exact (hlid x r).mp hx
  · intro r k hr
    exact (hid r k).mp hr

/-- Witness for claim C3 at the reachable state after one
`readSet([1,2,3])`. -/
theorem c3_indices_mirror_witness :
    (∀ kv ∈ c2s1.entries, ∀ x ∈ kv.1.keys,
      lookupA c2s1.lid2Id x = some (repOf kv.1)) ∧
    (∀ kv ∈ c2s1.entries, kv.1.keys ≠ [] ∧
      ∀ x ∈ kv.1.keys, repOf kv.1 ≤ x) ∧
    (∀ kv ∈ c2s1.entries, lookupA c2s1.id2KeySet (repOf kv.1) = some kv.1) ∧
    (∀ x r, lookupA c2s1.lid2Id x = some r →
      ∃ kv ∈ c2s1.entries, x ∈ kv.1.keys ∧ r = repOf kv.1) ∧
    (∀ r k, lookupA c2s1.id2KeySet r = some k →
      (∃ v, (k, v) ∈ c2s1.entries) ∧ r = repOf k) :=
  c3_indices_mirror demoCtx c2s1 (Reachable.read [1, 2, 3] Reachable.init)

/-- State after `readSet([5,6])` on a fresh cache. -/
def c5s1 : CacheState :=
  (readSet demoCtx initState (KeySet.ofList [5, 6])).2

/-- State after the subsequent `removeKey(5)`. -/
def c5s2 : CacheState := removeKey c5s1 5

/-- Claim C5: after caching `readSet([5,6])`, `removeKey(5)` invalidates
the whole entry, so a subsequent `readSet([5,6])` is a miss (the miss
counter is incremented, the hit counter is not); and `removeKey` on an
id that appears in no live entry leaves the cache unchanged. -/
theorem c5_removeKey_invalidates :
    ((hasKey c5s1 (KeySet.ofList [5, 6]) = true) ∧
      (hasKey c5s2 (KeySet.ofList [5, 6]) = false) ∧
      ((readSet demoCtx c5s2 (KeySet.ofList [5, 6])).2.misses
        = c5s2.misses + 1) ∧
      ((readSet demoCtx c5s2 (KeySet.ofList [5, 6])).2.hits
        = c5s2.hits)) ∧
    ∀ (ctx : CacheCtx) (s : CacheState) (lid : Nat), Reachable ctx s →
      (∀ kv ∈ s.entries, lid ∉ kv.1.keys) → removeKey s lid = s := by
  constructor
  · exact ⟨by decide, by decide, by decide, by decide⟩
  · intro ctx s lid hreach habs
    have hm := reachable_mirror hreach
    cases hx : lookupA s.lid2Id lid with
    | none =>
      unfold removeKey
      rw [hx]
    | some r =>
      exfalso
      obtain ⟨kv, hkv, hxkv, _⟩ := (hm.2.1 lid r).mp hx
      exact habs kv hkv hxkv

/-- Witness for claim C5's general part: `removeKey` of an id held by no
live entry leaves the fresh cache unchanged. -/
theorem c5_removeKey_invalidates_witness :
    removeKey initState 99 = initState :=
  c5_removeKey_invalidates.2 demoCtx initState 99 Reachable.init
    (fun kv hkv => absurd hkv (List.not_mem_nil kv))

/-- Claim C6: `readSet` on an empty KeySet returns an empty
CompressedBlobSet (the default-constructed one, whose position index is
empty) and returns the state itself: no entry inserted or evicted, both
secondary indices untouched, neither the hit nor the miss counter
incremented. -/
theorem c6_empty_readSet (ctx : CacheCtx) (s : CacheState) :
    readSet ctx s (KeySet.ofList []) = (CompressedBlobSet.default', s) ∧
    CompressedBlobSet.default'.emptyC = true ∧
    CompressedBlobSet.default'.positions = [] :=
  ⟨rfl, rfl, rfl⟩

end VespaVisit
